import Mathlib

/-!
# Storage_AI — verification of the directory-scan engine

Shallow embedding of the background directory scanner of `scanner_thread.py`
(class `DirectoryScanner`) and of the "Max results" clamping performed by
`ui_app.py` (`StorageScannerApp.start_scan`), together with proofs of the
specified properties: top-K ranking correctness and stability, per-directory
aggregate correctness, visited-set/cycle-guard invariants and termination,
completion protocol, update cadence, and cancellation behaviour.

Paths are modelled as `String`s, file sizes as `Nat` (`st_size` is
non-negative), and the filesystem as finite association-list data.  Fallible
filesystem calls (`os.scandir`, `DirEntry.is_dir`, `DirEntry.is_file`,
`DirEntry.stat`) are modelled with `Option`: `none` is the raised-exception
case that the corresponding `try/except` in the source swallows.
-/

namespace StorageAI

/-- One entry as yielded by `os.scandir(current_dir)`.
`isDir` models `entry.is_dir(follow_symlinks=True)` (`none` = raised),
`isFile` models `entry.is_file(follow_symlinks=False)` (`none` = raised),
`size` models `entry.stat().st_size` (`none` = raised). -/
structure FsEntry where
  path : String
  isDir : Option Bool
  isFile : Option Bool
  size : Option Nat
deriving Repr, DecidableEq

/-- Finite filesystem model.  `links` models `os.path.realpath`: a path not in
the table resolves to itself (this also absorbs the `except` fallback
`real = current_dir` in `_run`, which uses the path itself as its canonical
key).  `dirs` models `os.scandir`: a path not in the table raises, which
`_run` catches and ignores. -/
structure FileSystem where
  links : List (String × String)
  dirs : List (String × List FsEntry)
deriving Repr

/-- Association-list lookup (model of Python `dict` access / `realpath` table). -/
def alookup {α : Type} : List (String × α) → String → Option α
  | [], _ => none
  | (k, v) :: rest, key => if k = key then some v else alookup rest key

/-- `os.path.realpath(p)` with the caller's exception fallback folded in. -/
def FileSystem.canon (fs : FileSystem) (p : String) : String :=
  (alookup fs.links p).getD p

/-- `os.scandir(d)`: `none` models the exception swallowed by `_run`. -/
def FileSystem.listDir (fs : FileSystem) (d : String) : Option (List FsEntry) :=
  alookup fs.dirs d

/-! ## Top-K file ranker (`DirectoryScanner._update_top_files`)

Python's `list.sort(key=lambda x: x[1], reverse=True)` is a stable sort,
descending by the size component.  A stable sort is extensionally determined
by its key order and stability, so we model it by insertion sort where each
element is inserted behind all already-placed elements of size `≥` its own. -/

/-- Insert `x` into `l` behind every element whose size is `≥ x.2`
(so among equal sizes, earlier-inserted elements stay first: stability). -/
def insertDesc (x : String × Nat) : List (String × Nat) → List (String × Nat)
  | [] => [x]
  | y :: ys => if x.2 ≤ y.2 then y :: insertDesc x ys else x :: y :: ys

/-- Stable descending sort by size: model of
`top_files.sort(key=lambda x: x[1], reverse=True)`. -/
def sortDesc (l : List (String × Nat)) : List (String × Nat) :=
  l.foldl (fun acc x => insertDesc x acc) []

/-- `DirectoryScanner._update_top_files`: append, stable-sort descending by
size, and truncate to `max_results` when the length exceeds it. -/
def updateTopFiles (max_results : Nat) (top_files : List (String × Nat))
    (file_path : String) (size : Nat) : List (String × Nat) :=
  let t := sortDesc (top_files ++ [(file_path, size)])
  if max_results < t.length then t.take max_results else t

/-- Offering a whole sequence of `(path, size)` candidates in order, starting
from the empty ranking (as a fresh scan does). -/
def offerAll (max_results : Nat) (offers : List (String × Nat)) :
    List (String × Nat) :=
  offers.foldl (fun tf x => updateTopFiles max_results tf x.1 x.2) []

/-- The ordering invariant of the ranking: non-increasing sizes. -/
def SortedDesc (l : List (String × Nat)) : Prop :=
  List.Pairwise (fun a b : String × Nat => b.2 ≤ a.2) l

/-- The sub-list of ranking entries having one fixed size `v`. -/
def filterSize (v : Nat) (l : List (String × Nat)) : List (String × Nat) :=
  l.filter fun e => e.2 == v

/-! ## The traversal engine (`DirectoryScanner._run`)

The engine runs on its own thread and communicates through the `on_update`
and `on_done` callbacks; we model a run as the ordered list of callback
events it produces.  The consumer may set `_stop_event` at any moment from
another thread; the engine polls it with `is_set()` at the top of the outer
`while` loop, before each directory entry in the inner `for` loop, and once
more when choosing the completion message.  We model the asynchronous
setting of the flag by a poll counter (`clock`): every `is_set()` poll
increments the clock, and a schedule `stopAt = some k` means that poll
number `k` (0-indexed) and all later polls observe the flag set — the flag
never unsets, matching `threading.Event`. -/

/-- A snapshot handed to `on_update` (dataclass `ScanUpdate`). -/
structure ScanUpdate where
  current_dir : String
  scanned_dirs : Nat
  scanned_files : Nat
  top_dirs : List (String × Nat)
  top_files : List (String × Nat)
deriving Repr, DecidableEq

/-- One consumer-visible callback invocation. -/
inductive ScanEvent where
  | update (u : ScanUpdate)
  | done (msg : String)
deriving Repr, DecidableEq

/-- Constructor arguments of `DirectoryScanner.__init__` that configure a
scan (stored verbatim by `__init__`; the engine performs no validation). -/
structure ScanConfig where
  root : String
  max_results : Nat
  update_every_dirs : Nat
deriving Repr, DecidableEq

/-- `_stop_event.is_set()` at poll number `clock` under schedule `stopAt`. -/
def stopSet (stopAt : Option Nat) (clock : Nat) : Bool :=
  match stopAt with
  | none => false
  | some k => k ≤ clock

/-- The engine's mutable state, together with the poll clock and the event
trace (the callbacks issued so far, oldest first). -/
structure ScanState where
  queue : List String
  visited : List String
  scanned_dirs : Nat
  scanned_files : Nat
  dir_sizes : List (String × Nat)
  top_files : List (String × Nat)
  dirs_since_update : Nat
  clock : Nat
  events : List ScanEvent
deriving Repr, DecidableEq

/-- State set up by `DirectoryScanner.__init__`: the BFS queue seeded with
the root, everything else empty/zero. -/
def initState (cfg : ScanConfig) : ScanState :=
  { queue := [cfg.root], visited := [], scanned_dirs := 0, scanned_files := 0,
    dir_sizes := [], top_files := [], dirs_since_update := 0, clock := 0,
    events := [] }

/-- `if current_dir not in self.dir_sizes: self.dir_sizes[current_dir] = 0`
(Python dicts preserve insertion order, hence the append). -/
def ensureKey (k : String) (m : List (String × Nat)) : List (String × Nat) :=
  if (alookup m k).isSome then m else m ++ [(k, 0)]

/-- `self.dir_sizes[current_dir] += size`: in-place update of one key. -/
def addToKey (k : String) (v : Nat) (m : List (String × Nat)) :
    List (String × Nat) :=
  m.map fun p => if p.1 = k then (p.1, p.2 + v) else p

/-- `DirectoryScanner._get_top_dirs`: list the dict items in insertion
order, stable-sort descending by value, keep the first `max_results`. -/
def getTopDirs (cfg : ScanConfig) (m : List (String × Nat)) :
    List (String × Nat) :=
  (sortDesc m).take cfg.max_results

/-- `DirectoryScanner._send_update`: assemble a snapshot from the current
counters and rankings and emit it through `on_update`. -/
def sendUpdate (cfg : ScanConfig) (cur : String) (st : ScanState) :
    ScanState :=
  { st with events := st.events ++ [ScanEvent.update
      { current_dir := cur, scanned_dirs := st.scanned_dirs,
        scanned_files := st.scanned_files,
        top_dirs := getTopDirs cfg st.dir_sizes,
        top_files := st.top_files }] }

/-- Processing of one `os.scandir` entry (the body of the inner `for` after
the `is_set` poll): a directory (symlinks followed) is enqueued; otherwise a
regular file (symlinks not followed) is stat'ed and counted; every raised
classification or stat error skips just that entry. -/
def procEntry (cfg : ScanConfig) (cur : String) (e : FsEntry)
    (st : ScanState) : ScanState :=
  match e.isDir with
  | none => st
  | some true => { st with queue := st.queue ++ [e.path] }
  | some false =>
    match e.isFile with
    | none => st
    | some false => st
    | some true =>
      match e.size with
      | none => st
      | some sz =>
        { st with
          scanned_files := st.scanned_files + 1
          dir_sizes := addToKey cur sz st.dir_sizes
          top_files := updateTopFiles cfg.max_results st.top_files e.path sz }

/-- The inner `for entry in it:` loop: each iteration first polls
`_stop_event.is_set()` and `break`s when it is set. -/
def procEntries (cfg : ScanConfig) (stopAt : Option Nat) (cur : String) :
    List FsEntry → ScanState → ScanState
  | [], st => st
  | e :: rest, st =>
    let set := stopSet stopAt st.clock
    let st1 := { st with clock := st.clock + 1 }
    if set then st1
    else procEntries cfg stopAt cur rest (procEntry cfg cur e st1)

/-- The state changes of a fresh visit before enumeration: mark the
canonical form visited, count the directory, start a new reporting period
tick, and create the aggregate entry for the traversal path. -/
def visitState (fs : FileSystem) (cur : String) (rest : List String)
    (st : ScanState) : ScanState :=
  { st with
    queue := rest
    visited := fs.canon cur :: st.visited
    scanned_dirs := st.scanned_dirs + 1
    dirs_since_update := st.dirs_since_update + 1
    dir_sizes := ensureKey cur st.dir_sizes }

/-- `os.scandir` plus the inner entry loop; a raised enumeration error
(permission denied, vanished directory) abandons the directory silently. -/
def enumDir (cfg : ScanConfig) (fs : FileSystem) (stopAt : Option Nat)
    (cur : String) (st : ScanState) : ScanState :=
  match fs.listDir cur with
  | none => st
  | some es => procEntries cfg stopAt cur es st

/-- The reporting cadence after a visit: once `update_every_dirs` newly
visited directories have accumulated, reset the period counter and emit a
snapshot whose `current_dir` is the directory just processed. -/
def cadence (cfg : ScanConfig) (cur : String) (st : ScanState) : ScanState :=
  if cfg.update_every_dirs ≤ st.dirs_since_update then
    { sendUpdate cfg cur st with dirs_since_update := 0 }
  else st

/-- One iteration of the outer `while` loop body: dequeue, resolve the
canonical form, skip if already visited, otherwise visit, enumerate and
apply the reporting cadence. -/
def iterate (cfg : ScanConfig) (fs : FileSystem) (stopAt : Option Nat)
    (st : ScanState) : ScanState :=
  match st.queue with
  | [] => st
  | cur :: rest =>
    if fs.canon cur ∈ st.visited then { st with queue := rest }
    else cadence cfg cur (enumDir cfg fs stopAt cur (visitState fs cur rest st))

/-- Loop exit: emit the final snapshot with the `"(done)"` sentinel, then
invoke `on_done` with `"Scan stopped."` or `"Scan finished."` according to
one last `is_set()` poll. -/
def finish (cfg : ScanConfig) (stopAt : Option Nat) (st : ScanState) :
    ScanState :=
  let st1 := sendUpdate cfg "(done)" st
  let set := stopSet stopAt st1.clock
  let st2 := { st1 with clock := st1.clock + 1 }
  { st2 with events := st2.events ++ [ScanEvent.done
      (if set then "Scan stopped." else "Scan finished.")] }

/-- The outer `while not self._dir_queue.empty() and not
self._stop_event.is_set():` loop, fuel-indexed: `none` means the fuel ran
out before the loop exited (used only to express termination; every actual
run is reached with sufficient fuel, see the termination theorem). -/
def loop (cfg : ScanConfig) (fs : FileSystem) (stopAt : Option Nat) :
    Nat → ScanState → Option ScanState
  | 0, st =>
    if st.queue.isEmpty then some (finish cfg stopAt st)
    else
      let set := stopSet stopAt st.clock
      let st1 := { st with clock := st.clock + 1 }
      if set then some (finish cfg stopAt st1) else none
  | fuel + 1, st =>
    if st.queue.isEmpty then some (finish cfg stopAt st)
    else
      let set := stopSet stopAt st.clock
      let st1 := { st with clock := st.clock + 1 }
      if set then some (finish cfg stopAt st1)
      else loop cfg fs stopAt fuel (iterate cfg fs stopAt st1)

/-- A whole run of `DirectoryScanner._run` from the freshly initialised
state. -/
def run (cfg : ScanConfig) (fs : FileSystem) (stopAt : Option Nat)
    (fuel : Nat) : Option ScanState :=
  loop cfg fs stopAt fuel (initState cfg)

/-- The contribution of a single `os.scandir` entry to its parent's
aggregate: the stat'ed size when the entry is classified as a regular file
(not a directory, `is_file(follow_symlinks=False)` true, stat succeeds),
and `0` otherwise. -/
def entryFileSize (e : FsEntry) : Nat :=
  match e.isDir with
  | some false =>
    match e.isFile with
    | some true =>
      match e.size with
      | some sz => sz
      | none => 0
    | _ => 0
  | _ => 0

/-- The exact sum of the sizes of a directory's *direct* regular-file
children (zero when the enumeration itself fails). -/
def dirFileSum (fs : FileSystem) (d : String) : Nat :=
  match fs.listDir d with
  | none => 0
  | some es => (es.map entryFileSize).sum

/-- The snapshots of a trace, in emission order. -/
def updateEvents (evs : List ScanEvent) : List ScanUpdate :=
  evs.filterMap fun e =>
    match e with
    | ScanEvent.update u => some u
    | ScanEvent.done _ => none

/-- All entry paths the filesystem can ever hand to the scanner. -/
def allEntryPaths (fs : FileSystem) : List String :=
  (fs.dirs.map fun p => p.2.map FsEntry.path).flatten

/-- Every path that can ever sit in the BFS queue: the root and every
enumerable entry path. -/
def candPaths (cfg : ScanConfig) (fs : FileSystem) : List String :=
  cfg.root :: allEntryPaths fs

/-- Canonical directories not yet visited (the potential for new visits). -/
def unvisited (cfg : ScanConfig) (fs : FileSystem) (st : ScanState) :
    Finset String :=
  ((candPaths cfg fs).map fs.canon).toFinset \ st.visited.toFinset

/-- Termination measure for the outer loop: every iteration either consumes
a queue entry without visiting (measure −1) or visits a new canonical
directory, paying for at most `(allEntryPaths fs).length` new queue
entries. -/
def loopMeasure (cfg : ScanConfig) (fs : FileSystem) (st : ScanState) :
    Nat :=
  ((allEntryPaths fs).length + 1) * (unvisited cfg fs st).card
    + st.queue.length

/-! ## The "Max results" field of the consumer (`StorageScannerApp.start_scan`)

The entry widget's key-validation (`lambda s: s.isdigit() or s == ""`)
restricts the field to decimal-digit strings or the empty string, so
`int()` on its contents is modelled for exactly those inputs. -/

/-- Model of Python `int(s)` on the strings the "Max results" entry widget
admits: a nonempty all-digit string is its decimal value, anything else
(in particular the empty string) raises `ValueError`, modelled as `none`. -/
def pyInt (s : String) : Option Nat :=
  if s.length ≠ 0 ∧ s.toList.all Char.isDigit then
    some (s.toList.foldl (fun acc c => 10 * acc + (c.toNat - 48)) 0)
  else none

/-- The clamp in `StorageScannerApp.start_scan`: parse the field, raise
values below 5 to 5, and fall back to 25 when parsing raises. -/
def clampMaxResults (s : String) : Nat :=
  match pyInt s with
  | some n => if n < 5 then 5 else n
  | none => 25

/-! ## Concrete fixtures used by the witnesses -/

/-- A small synthetic tree: `r` contains subdirectories `r/A` (one 300-byte
file) and `r/B` (one 10-byte file), and no direct files of its own. -/
def demoFS : FileSystem :=
  ⟨[], [("r", [⟨"r/A", some true, none, none⟩,
               ⟨"r/B", some true, none, none⟩]),
        ("r/A", [⟨"r/A/x", some false, some true, some 300⟩]),
        ("r/B", [⟨"r/B/y", some false, some true, some 10⟩])]⟩

def demoCfg : ScanConfig := ⟨"r", 2, 25⟩

/-- The final state of a cancellation-free scan of the demo tree. -/
def demoFinal : ScanState :=
  (loop demoCfg demoFS none 5 (initState demoCfg)).getD (initState demoCfg)

/-! Basic lemmas about `insertDesc` and `sortDesc`. -/

theorem insertDesc_perm (x : String × Nat) (l : List (String × Nat)) :
    (insertDesc x l).Perm (x :: l) := by
  induction l with
  | nil => simp [insertDesc]
  | cons y ys ih =>
    simp only [insertDesc]
    split
    · exact (ih.cons y).trans (List.Perm.swap x y ys)
    · exact List.Perm.refl _

theorem sortDesc_perm (l : List (String × Nat)) : (sortDesc l).Perm l := by
  suffices h : ∀ (l acc : List (String × Nat)),
      (l.foldl (fun acc x => insertDesc x acc) acc).Perm (acc ++ l) by
    simpa using h l []
  intro l
  induction l with
  | nil => simp
  | cons x xs ih =>
    intro acc
    simp only [List.foldl_cons]
    refine (ih (insertDesc x acc)).trans ?_
    refine (List.Perm.append_right xs (insertDesc_perm x acc)).trans ?_
    simpa using (@List.perm_middle _ x acc xs).symm

theorem mem_insertDesc {z x : String × Nat} {l : List (String × Nat)}
    (h : z ∈ insertDesc x l) : z = x ∨ z ∈ l :=
  (List.mem_cons.mp ((insertDesc_perm x l).mem_iff.mp h)).imp id id

theorem insertDesc_sorted (x : String × Nat) {l : List (String × Nat)}
    (h : SortedDesc l) : SortedDesc (insertDesc x l) := by
  induction l with
  | nil => simp [insertDesc, SortedDesc]
  | cons y ys ih =>
    rcases List.pairwise_cons.mp h with ⟨hy, hys⟩
    by_cases hx : x.2 ≤ y.2
    · simp only [insertDesc, if_pos hx]
      refine List.pairwise_cons.mpr ⟨?_, ih hys⟩
      intro z hz
      rcases mem_insertDesc hz with rfl | hz
      · exact hx
      · exact hy z hz
    · simp only [insertDesc, if_neg hx]
      refine List.pairwise_cons.mpr ⟨?_, h⟩
      intro z hz
      rcases List.mem_cons.mp hz with rfl | hz
      · exact Nat.le_of_lt (Nat.lt_of_not_le hx)
      · exact Nat.le_trans (hy z hz) (Nat.le_of_lt (Nat.lt_of_not_le hx))

theorem sortDesc_sorted (l : List (String × Nat)) : SortedDesc (sortDesc l) := by
  suffices h : ∀ (l acc : List (String × Nat)), SortedDesc acc →
      SortedDesc (l.foldl (fun acc x => insertDesc x acc) acc) by
    exact h l [] (by simp [SortedDesc])
  intro l
  induction l with
  | nil => intro acc h; simpa using h
  | cons x xs ih =>
    intro acc h
    exact ih (insertDesc x acc) (insertDesc_sorted x h)

/-- Inserting behind every element: when everything in `l` is at least as
large, the new element lands at the end. -/
theorem insertDesc_eq_append {x : String × Nat} {l : List (String × Nat)}
    (h : ∀ z ∈ l, x.2 ≤ z.2) : insertDesc x l = l ++ [x] := by
  induction l with
  | nil => rfl
  | cons y ys ih =>
    have hy : x.2 ≤ y.2 := h y (List.mem_cons_self y ys)
    simp only [insertDesc, if_pos hy, List.cons_append, List.cons.injEq, true_and]
    exact ih fun z hz => h z (List.mem_cons_of_mem y hz)

theorem sortDesc_append_singleton (l : List (String × Nat)) (x : String × Nat) :
    sortDesc (l ++ [x]) = insertDesc x (sortDesc l) := by
  simp [sortDesc, List.foldl_append]

/-- A stable sort leaves an already-sorted list unchanged. -/
theorem sortDesc_eq_self {l : List (String × Nat)} (h : SortedDesc l) :
    sortDesc l = l := by
  induction l using List.reverseRecOn with
  | nil => rfl
  | append_singleton t y ih =>
    rcases List.pairwise_append.mp h with ⟨ht, _, hrel⟩
    rw [sortDesc_append_singleton, ih ht]
    exact insertDesc_eq_append fun z hz =>
      hrel z hz y (List.mem_singleton_self y)

/-- Key truncation lemma: keeping only the first `K` elements before an
insertion does not change the first `K` elements after it.  Holds for every
list, sorted or not. -/
theorem take_insertDesc_take (x : String × Nat) :
    ∀ (s : List (String × Nat)) (K : Nat),
      (insertDesc x (s.take K)).take K = (insertDesc x s).take K := by
  intro s
  induction s with
  | nil => intro K; rw [List.take_nil]
  | cons y ys ih =>
    intro K
    match K with
    | 0 => rfl
    | Nat.succ m =>
      by_cases hx : x.2 ≤ y.2
      · simp only [List.take_cons, insertDesc, if_pos hx, List.take_succ_cons]
        rw [ih m]
      · simp only [List.take_cons, insertDesc, if_neg hx, List.take_succ_cons]
        match m with
        | 0 => rfl
        | Nat.succ k =>
          simp [List.take_take, Nat.min_def, Nat.le_of_lt (Nat.lt_succ_self k)]

/-- `_update_top_files` always behaves as "sort, then keep the first `K`":
when the sorted list is short enough the truncation is the identity. -/
theorem updateTopFiles_eq_take (K : Nat) (tf : List (String × Nat))
    (p : String) (s : Nat) :
    updateTopFiles K tf p s = (sortDesc (tf ++ [(p, s)])).take K := by
  unfold updateTopFiles
  by_cases h : K < (sortDesc (tf ++ [(p, s)])).length
  · simp [h]
  · simp [h, List.take_of_length_le (Nat.le_of_not_lt h)]

/-- Central characterisation of the ranker: folding any offer sequence
through `_update_top_files` yields exactly the first `K` elements of the
stable descending sort of the full sequence. -/
theorem offerAll_eq_take_sortDesc (K : Nat) (offers : List (String × Nat)) :
    offerAll K offers = (sortDesc offers).take K := by
  induction offers using List.reverseRecOn with
  | nil => simp [offerAll, sortDesc]
  | append_singleton l x ih =>
    have hfold : offerAll K (l ++ [x]) =
        updateTopFiles K (offerAll K l) x.1 x.2 := by
      simp [offerAll, List.foldl_append]
    have hsorted : SortedDesc ((sortDesc l).take K) :=
      List.Pairwise.sublist (List.take_sublist K (sortDesc l))
        (sortDesc_sorted l)
    rw [hfold, updateTopFiles_eq_take, ih, sortDesc_append_singleton,
      sortDesc_eq_self hsorted, take_insertDesc_take,
      ← sortDesc_append_singleton]

theorem filterSize_insertDesc_ne {x : String × Nat} {v : Nat} (hx : x.2 ≠ v)
    (t : List (String × Nat)) :
    filterSize v (insertDesc x t) = filterSize v t := by
  induction t with
  | nil => simp [insertDesc, filterSize, hx]
  | cons y ys ih =>
    have ih' : List.filter (fun e => e.2 == v) (insertDesc x ys) =
        List.filter (fun e => e.2 == v) ys := ih
    by_cases h : x.2 ≤ y.2
    · simp only [insertDesc, if_pos h, filterSize, List.filter_cons]
      rw [ih']
    · simp [insertDesc, if_neg h, filterSize, List.filter_cons, hx]

theorem filterSize_insertDesc_eq {x : String × Nat} {v : Nat} (hx : x.2 = v)
    {t : List (String × Nat)} (ht : SortedDesc t) :
    filterSize v (insertDesc x t) = filterSize v t ++ [x] := by
  induction t with
  | nil => simp [insertDesc, filterSize, hx]
  | cons y ys ih =>
    rcases List.pairwise_cons.mp ht with ⟨hy, hys⟩
    by_cases h : x.2 ≤ y.2
    · simp only [insertDesc, if_pos h, filterSize, List.filter_cons]
      by_cases hyv : (y.2 == v) = true
      · simpa [filterSize, hyv] using ih hys
      · simpa [filterSize, hyv] using ih hys
    · have hlt : y.2 < x.2 := Nat.lt_of_not_le h
      have hnil : filterSize v (y :: ys) = [] := by
        refine List.filter_eq_nil_iff.mpr ?_
        intro z hz
        have hzle : z.2 ≤ y.2 := by
          rcases List.mem_cons.mp hz with rfl | hz
          · exact Nat.le_refl _
          · exact hy z hz
        have : z.2 < v := hx ▸ Nat.lt_of_le_of_lt hzle hlt
        simp [Nat.ne_of_lt this]
      have hstep : insertDesc x (y :: ys) = x :: y :: ys := by
        simp [insertDesc, if_neg h]
      have hcons : filterSize v (x :: y :: ys) =
          x :: filterSize v (y :: ys) := by
        simp [filterSize, List.filter_cons, hx]
      rw [hstep, hcons, hnil]
      simp

/-- Stability of the modelled sort: for each fixed size, sorting preserves
the original relative order of the entries with that size. -/
theorem filterSize_sortDesc (v : Nat) (l : List (String × Nat)) :
    filterSize v (sortDesc l) = filterSize v l := by
  induction l using List.reverseRecOn with
  | nil => rfl
  | append_singleton t x ih =>
    rw [sortDesc_append_singleton]
    by_cases hx : x.2 = v
    · rw [filterSize_insertDesc_eq hx (sortDesc_sorted t), ih]
      simp [filterSize, List.filter_append, hx]
    · rw [filterSize_insertDesc_ne hx, ih]
      simp [filterSize, List.filter_append, hx]

/-! ## Dictionary lemmas -/

theorem alookup_append {α : Type} (m m' : List (String × α)) (d : String) :
    alookup (m ++ m') d = ((alookup m d).orElse fun _ => alookup m' d) := by
  induction m with
  | nil => simp [alookup]
  | cons p rest ih =>
    by_cases h : p.1 = d
    · simp [alookup, h]
    · simp [alookup, h, ih]

theorem addToKey_cons (k : String) (v : Nat) (a : String) (b : Nat)
    (rest : List (String × Nat)) :
    addToKey k v ((a, b) :: rest) =
      (if a = k then (a, b + v) else (a, b)) :: addToKey k v rest := by
  unfold addToKey
  rw [List.map_cons]

theorem alookup_addToKey_self (k : String) (v : Nat)
    (m : List (String × Nat)) :
    alookup (addToKey k v m) k = (alookup m k).map (· + v) := by
  induction m with
  | nil => simp [alookup, addToKey]
  | cons p rest ih =>
    obtain ⟨a, b⟩ := p
    rw [addToKey_cons]
    by_cases h : a = k
    · rw [if_pos h]
      simp [alookup, h]
    · rw [if_neg h]
      simp [alookup, h, ih]

theorem alookup_addToKey_ne {d k : String} (hne : d ≠ k) (v : Nat)
    (m : List (String × Nat)) :
    alookup (addToKey k v m) d = alookup m d := by
  induction m with
  | nil => simp [alookup, addToKey]
  | cons p rest ih =>
    obtain ⟨a, b⟩ := p
    rw [addToKey_cons]
    by_cases h : a = k
    · rw [if_pos h]
      have had : a ≠ d := fun hc => hne (hc.symm.trans h)
      simp [alookup, had, ih]
    · rw [if_neg h]
      by_cases h2 : a = d
      · simp [alookup, h2]
      · simp [alookup, h2, ih]

theorem alookup_ensureKey_self (k : String) (m : List (String × Nat)) :
    alookup (ensureKey k m) k = some ((alookup m k).getD 0) := by
  unfold ensureKey
  by_cases h : (alookup m k).isSome
  · rcases Option.isSome_iff_exists.mp h with ⟨v, hv⟩
    simp [h, hv]
  · have hnone : alookup m k = none := Option.not_isSome_iff_eq_none.mp h
    simp [h, alookup_append, hnone, alookup]

theorem alookup_ensureKey_ne {d k : String} (hne : d ≠ k)
    (m : List (String × Nat)) :
    alookup (ensureKey k m) d = alookup m d := by
  unfold ensureKey
  by_cases h : (alookup m k).isSome
  · simp [h]
  · have hkd : k ≠ d := fun hc => hne hc.symm
    cases halo : alookup m d <;>
      simp [h, alookup_append, alookup, hkd, halo, Option.orElse]

/-! ## Entry-processing lemmas -/

theorem procEntry_visited (cfg : ScanConfig) (cur : String) (e : FsEntry)
    (st : ScanState) : (procEntry cfg cur e st).visited = st.visited := by
  unfold procEntry
  rcases e.isDir with _ | b
  · rfl
  · rcases b
    · rcases e.isFile with _ | c
      · rfl
      · rcases c
        · rfl
        · rcases e.size with _ | sz <;> rfl
    · rfl

theorem procEntry_scanned_dirs (cfg : ScanConfig) (cur : String)
    (e : FsEntry) (st : ScanState) :
    (procEntry cfg cur e st).scanned_dirs = st.scanned_dirs := by
  unfold procEntry
  rcases e.isDir with _ | b
  · rfl
  · rcases b
    · rcases e.isFile with _ | c
      · rfl
      · rcases c
        · rfl
        · rcases e.size with _ | sz <;> rfl
    · rfl

theorem procEntry_dirs_since_update (cfg : ScanConfig) (cur : String)
    (e : FsEntry) (st : ScanState) :
    (procEntry cfg cur e st).dirs_since_update = st.dirs_since_update := by
  unfold procEntry
  rcases e.isDir with _ | b
  · rfl
  · rcases b
    · rcases e.isFile with _ | c
      · rfl
      · rcases c
        · rfl
        · rcases e.size with _ | sz <;> rfl
    · rfl

theorem procEntry_events (cfg : ScanConfig) (cur : String) (e : FsEntry)
    (st : ScanState) : (procEntry cfg cur e st).events = st.events := by
  unfold procEntry
  rcases e.isDir with _ | b
  · rfl
  · rcases b
    · rcases e.isFile with _ | c
      · rfl
      · rcases c
        · rfl
        · rcases e.size with _ | sz <;> rfl
    · rfl

theorem procEntry_clock (cfg : ScanConfig) (cur : String) (e : FsEntry)
    (st : ScanState) : (procEntry cfg cur e st).clock = st.clock := by
  unfold procEntry
  rcases e.isDir with _ | b
  · rfl
  · rcases b
    · rcases e.isFile with _ | c
      · rfl
      · rcases c
        · rfl
        · rcases e.size with _ | sz <;> rfl
    · rfl

theorem procEntry_dir_sizes (cfg : ScanConfig) (cur : String) (e : FsEntry)
    (st : ScanState) (d : String) :
    alookup (procEntry cfg cur e st).dir_sizes d =
      if d = cur then (alookup st.dir_sizes d).map (· + entryFileSize e)
      else alookup st.dir_sizes d := by
  unfold procEntry entryFileSize
  rcases e.isDir with _ | b
  · by_cases h : d = cur <;> simp [h]
  · rcases b
    · rcases e.isFile with _ | c
      · by_cases h : d = cur <;> simp [h]
      · rcases c
        · by_cases h : d = cur <;> simp [h]
        · rcases e.size with _ | sz
          · by_cases h : d = cur <;> simp [h]
          · by_cases h : d = cur
            · simp [h, alookup_addToKey_self]
            · simp [h, alookup_addToKey_ne h]
    · by_cases h : d = cur <;> simp [h]

theorem procEntry_queue (cfg : ScanConfig) (cur : String) (e : FsEntry)
    (st : ScanState) :
    (procEntry cfg cur e st).queue = st.queue ∨
      (procEntry cfg cur e st).queue = st.queue ++ [e.path] := by
  unfold procEntry
  rcases e.isDir with _ | b
  · exact Or.inl rfl
  · rcases b
    · rcases e.isFile with _ | c
      · exact Or.inl rfl
      · rcases c
        · exact Or.inl rfl
        · rcases e.size with _ | sz
          · exact Or.inl rfl
          · exact Or.inl rfl
    · exact Or.inr rfl

theorem procEntries_visited (cfg : ScanConfig) (stopAt : Option Nat)
    (cur : String) (es : List FsEntry) (st : ScanState) :
    (procEntries cfg stopAt cur es st).visited = st.visited := by
  induction es generalizing st with
  | nil => rfl
  | cons e rest ih =>
    unfold procEntries
    by_cases h : stopSet stopAt st.clock
    · simp [h]
    · simp only [h, if_neg, Bool.false_eq_true, not_false_eq_true]
      rw [ih, procEntry_visited]

theorem procEntries_scanned_dirs (cfg : ScanConfig) (stopAt : Option Nat)
    (cur : String) (es : List FsEntry) (st : ScanState) :
    (procEntries cfg stopAt cur es st).scanned_dirs = st.scanned_dirs := by
  induction es generalizing st with
  | nil => rfl
  | cons e rest ih =>
    unfold procEntries
    by_cases h : stopSet stopAt st.clock
    · simp [h]
    · simp only [h, Bool.false_eq_true, not_false_eq_true]
      rw [if_neg (by simp [h]), ih, procEntry_scanned_dirs]

theorem procEntries_dirs_since_update (cfg : ScanConfig)
    (stopAt : Option Nat) (cur : String) (es : List FsEntry)
    (st : ScanState) :
    (procEntries cfg stopAt cur es st).dirs_since_update =
      st.dirs_since_update := by
  induction es generalizing st with
  | nil => rfl
  | cons e rest ih =>
    unfold procEntries
    by_cases h : stopSet stopAt st.clock
    · simp [h]
    · rw [if_neg (by simp [h]), ih, procEntry_dirs_since_update]

theorem procEntries_events (cfg : ScanConfig) (stopAt : Option Nat)
    (cur : String) (es : List FsEntry) (st : ScanState) :
    (procEntries cfg stopAt cur es st).events = st.events := by
  induction es generalizing st with
  | nil => rfl
  | cons e rest ih =>
    unfold procEntries
    by_cases h : stopSet stopAt st.clock
    · simp [h]
    · rw [if_neg (by simp [h]), ih, procEntry_events]

theorem procEntries_queue (cfg : ScanConfig) (stopAt : Option Nat)
    (cur : String) (es : List FsEntry) (st : ScanState) :
    ∃ q', (procEntries cfg stopAt cur es st).queue = st.queue ++ q' ∧
      q'.length ≤ es.length ∧ ∀ p ∈ q', p ∈ es.map FsEntry.path := by
  induction es generalizing st with
  | nil => exact ⟨[], by simp [procEntries]⟩
  | cons e rest ih =>
    unfold procEntries
    by_cases h : stopSet stopAt st.clock
    · rw [if_pos h]
      exact ⟨[], by simp⟩
    · rw [if_neg (by simp [h])]
      rcases ih (procEntry cfg cur e { st with clock := st.clock + 1 }) with
        ⟨q', hq, hlen, hmem⟩
      rcases procEntry_queue cfg cur e { st with clock := st.clock + 1 } with
        hsame | hput
      · refine ⟨q', by rw [hq, hsame], Nat.le_succ_of_le hlen, ?_⟩
        intro p hp
        exact List.mem_cons_of_mem _ (hmem p hp)
      · refine ⟨e.path :: q', ?_, by simpa using Nat.succ_le_succ hlen, ?_⟩
        · rw [hq, hput]
          simp
        · intro p hp
          rcases List.mem_cons.mp hp with rfl | hp
          · simp
          · exact List.mem_cons_of_mem _ (hmem p hp)

theorem procEntries_dir_sizes_ne (cfg : ScanConfig) (stopAt : Option Nat)
    {d cur : String} (hne : d ≠ cur) (es : List FsEntry) (st : ScanState) :
    alookup (procEntries cfg stopAt cur es st).dir_sizes d =
      alookup st.dir_sizes d := by
  induction es generalizing st with
  | nil => rfl
  | cons e rest ih =>
    unfold procEntries
    by_cases h : stopSet stopAt st.clock
    · simp [h]
    · rw [if_neg (by simp [h]), ih, procEntry_dir_sizes, if_neg hne]

theorem procEntries_dir_sizes_none (cfg : ScanConfig) (stopAt : Option Nat)
    (cur : String) (es : List FsEntry) (st : ScanState) (d : String)
    (hd : alookup st.dir_sizes d = none) :
    alookup (procEntries cfg stopAt cur es st).dir_sizes d = none := by
  induction es generalizing st with
  | nil => exact hd
  | cons e rest ih =>
    unfold procEntries
    by_cases h : stopSet stopAt st.clock
    · simp [h, hd]
    · rw [if_neg (by simp [h])]
      refine ih _ ?_
      rw [procEntry_dir_sizes]
      by_cases hdc : d = cur
      · subst hdc
        simp [hd]
      · simp [hdc, hd]

/-- With no cancellation, the inner loop runs to the end of the entry list
and adds exactly the directory's direct-file total to the current key. -/
theorem procEntries_dir_sizes_self_none (cfg : ScanConfig) (cur : String)
    (es : List FsEntry) (st : ScanState) {v : Nat}
    (hv : alookup st.dir_sizes cur = some v) :
    alookup (procEntries cfg none cur es st).dir_sizes cur =
      some (v + (es.map entryFileSize).sum) := by
  induction es generalizing st v with
  | nil => simpa [procEntries] using hv
  | cons e rest ih =>
    unfold procEntries
    rw [if_neg (by simp [stopSet])]
    have hstep : alookup (procEntry cfg cur e
        { st with clock := st.clock + 1 }).dir_sizes cur =
        some (v + entryFileSize e) := by
      rw [procEntry_dir_sizes, if_pos rfl]
      simp [hv]
    rw [ih _ hstep]
    simp [Nat.add_assoc]

/-- Aggregate values never shrink while entries are being processed,
whatever the cancellation schedule. -/
theorem procEntries_dir_sizes_mono (cfg : ScanConfig) (stopAt : Option Nat)
    (cur : String) (es : List FsEntry) (st : ScanState) {d : String}
    {v : Nat} (hv : alookup st.dir_sizes d = some v) :
    ∃ v', alookup (procEntries cfg stopAt cur es st).dir_sizes d = some v' ∧
      v ≤ v' := by
  induction es generalizing st v with
  | nil => exact ⟨v, hv, Nat.le_refl v⟩
  | cons e rest ih =>
    unfold procEntries
    by_cases h : stopSet stopAt st.clock
    · exact ⟨v, by simp [h, hv], Nat.le_refl v⟩
    · rw [if_neg (by simp [h])]
      have hstep : alookup (procEntry cfg cur e
          { st with clock := st.clock + 1 }).dir_sizes d =
          some (if d = cur then v + entryFileSize e else v) := by
        rw [procEntry_dir_sizes]
        by_cases hdc : d = cur
        · subst hdc
          simp [hv]
        · simp [hdc, hv]
      rcases ih _ hstep with ⟨v', hv', hle⟩
      refine ⟨v', hv', Nat.le_trans ?_ hle⟩
      by_cases hdc : d = cur <;> simp [hdc, Nat.le_add_right]

/-! ## Outer-iteration lemmas -/

theorem iterate_nil (cfg : ScanConfig) (fs : FileSystem)
    (stopAt : Option Nat) {st : ScanState} (h : st.queue = []) :
    iterate cfg fs stopAt st = st := by
  unfold iterate
  rw [h]

theorem iterate_skip (cfg : ScanConfig) (fs : FileSystem)
    (stopAt : Option Nat) {st : ScanState} {cur : String}
    {rest : List String} (h : st.queue = cur :: rest)
    (hv : fs.canon cur ∈ st.visited) :
    iterate cfg fs stopAt st = { st with queue := rest } := by
  unfold iterate
  rw [h]
  simp [hv]

theorem iterate_visit (cfg : ScanConfig) (fs : FileSystem)
    (stopAt : Option Nat) {st : ScanState} {cur : String}
    {rest : List String} (h : st.queue = cur :: rest)
    (hv : fs.canon cur ∉ st.visited) :
    iterate cfg fs stopAt st =
      cadence cfg cur
        (enumDir cfg fs stopAt cur (visitState fs cur rest st)) := by
  unfold iterate
  rw [h]
  simp [hv]

theorem enumDir_visited (cfg : ScanConfig) (fs : FileSystem)
    (stopAt : Option Nat) (cur : String) (st : ScanState) :
    (enumDir cfg fs stopAt cur st).visited = st.visited := by
  unfold enumDir
  cases fs.listDir cur with
  | none => rfl
  | some es => exact procEntries_visited cfg stopAt cur es st

theorem enumDir_scanned_dirs (cfg : ScanConfig) (fs : FileSystem)
    (stopAt : Option Nat) (cur : String) (st : ScanState) :
    (enumDir cfg fs stopAt cur st).scanned_dirs = st.scanned_dirs := by
  unfold enumDir
  cases fs.listDir cur with
  | none => rfl
  | some es => exact procEntries_scanned_dirs cfg stopAt cur es st

theorem enumDir_dirs_since_update (cfg : ScanConfig) (fs : FileSystem)
    (stopAt : Option Nat) (cur : String) (st : ScanState) :
    (enumDir cfg fs stopAt cur st).dirs_since_update =
      st.dirs_since_update := by
  unfold enumDir
  cases fs.listDir cur with
  | none => rfl
  | some es => exact procEntries_dirs_since_update cfg stopAt cur es st

theorem enumDir_events (cfg : ScanConfig) (fs : FileSystem)
    (stopAt : Option Nat) (cur : String) (st : ScanState) :
    (enumDir cfg fs stopAt cur st).events = st.events := by
  unfold enumDir
  cases fs.listDir cur with
  | none => rfl
  | some es => exact procEntries_events cfg stopAt cur es st

theorem cadence_visited (cfg : ScanConfig) (cur : String) (st : ScanState) :
    (cadence cfg cur st).visited = st.visited := by
  unfold cadence
  by_cases h : cfg.update_every_dirs ≤ st.dirs_since_update <;>
    simp [h, sendUpdate]

theorem cadence_scanned_dirs (cfg : ScanConfig) (cur : String)
    (st : ScanState) :
    (cadence cfg cur st).scanned_dirs = st.scanned_dirs := by
  unfold cadence
  by_cases h : cfg.update_every_dirs ≤ st.dirs_since_update <;>
    simp [h, sendUpdate]

theorem cadence_dir_sizes (cfg : ScanConfig) (cur : String)
    (st : ScanState) :
    (cadence cfg cur st).dir_sizes = st.dir_sizes := by
  unfold cadence
  by_cases h : cfg.update_every_dirs ≤ st.dirs_since_update <;>
    simp [h, sendUpdate]

theorem cadence_queue (cfg : ScanConfig) (cur : String) (st : ScanState) :
    (cadence cfg cur st).queue = st.queue := by
  unfold cadence
  by_cases h : cfg.update_every_dirs ≤ st.dirs_since_update <;>
    simp [h, sendUpdate]

theorem cadence_events (cfg : ScanConfig) (cur : String) (st : ScanState) :
    (cadence cfg cur st).events = st.events ∨
      (cadence cfg cur st).events = st.events ++ [ScanEvent.update
        { current_dir := cur, scanned_dirs := st.scanned_dirs,
          scanned_files := st.scanned_files,
          top_dirs := getTopDirs cfg st.dir_sizes,
          top_files := st.top_files }] := by
  unfold cadence
  by_cases h : cfg.update_every_dirs ≤ st.dirs_since_update
  · exact Or.inr (by simp [h, sendUpdate])
  · exact Or.inl (by simp [h])

theorem enumDir_dir_sizes_ne (cfg : ScanConfig) (fs : FileSystem)
    (stopAt : Option Nat) {d cur : String} (hne : d ≠ cur)
    (st : ScanState) :
    alookup (enumDir cfg fs stopAt cur st).dir_sizes d =
      alookup st.dir_sizes d := by
  unfold enumDir
  cases fs.listDir cur with
  | none => rfl
  | some es => exact procEntries_dir_sizes_ne cfg stopAt hne es st

theorem enumDir_dir_sizes_self_none (cfg : ScanConfig) (fs : FileSystem)
    (cur : String) (st : ScanState) {v : Nat}
    (hv : alookup st.dir_sizes cur = some v) :
    alookup (enumDir cfg fs none cur st).dir_sizes cur =
      some (v + dirFileSum fs cur) := by
  unfold enumDir dirFileSum
  cases fs.listDir cur with
  | none => simpa using hv
  | some es => exact procEntries_dir_sizes_self_none cfg cur es st hv

theorem enumDir_dir_sizes_none (cfg : ScanConfig) (fs : FileSystem)
    (stopAt : Option Nat) (cur : String) (st : ScanState) {d : String}
    (hd : alookup st.dir_sizes d = none) :
    alookup (enumDir cfg fs stopAt cur st).dir_sizes d = none := by
  unfold enumDir
  cases fs.listDir cur with
  | none => exact hd
  | some es => exact procEntries_dir_sizes_none cfg stopAt cur es st d hd

theorem enumDir_dir_sizes_mono (cfg : ScanConfig) (fs : FileSystem)
    (stopAt : Option Nat) (cur : String) (st : ScanState) {d : String}
    {v : Nat} (hv : alookup st.dir_sizes d = some v) :
    ∃ v', alookup (enumDir cfg fs stopAt cur st).dir_sizes d = some v' ∧
      v ≤ v' := by
  unfold enumDir
  cases fs.listDir cur with
  | none => exact ⟨v, hv, Nat.le_refl v⟩
  | some es => exact procEntries_dir_sizes_mono cfg stopAt cur es st hv

/-! ## Loop backbone -/

theorem finish_events (cfg : ScanConfig) (stopAt : Option Nat)
    (st : ScanState) :
    (finish cfg stopAt st).events = st.events ++
      [ScanEvent.update
        { current_dir := "(done)", scanned_dirs := st.scanned_dirs,
          scanned_files := st.scanned_files,
          top_dirs := getTopDirs cfg st.dir_sizes,
          top_files := st.top_files },
       ScanEvent.done
        (if stopSet stopAt st.clock then "Scan stopped."
         else "Scan finished.")] := by
  unfold finish sendUpdate
  simp

theorem finish_scanned_dirs (cfg : ScanConfig) (stopAt : Option Nat)
    (st : ScanState) :
    (finish cfg stopAt st).scanned_dirs = st.scanned_dirs := rfl

theorem finish_visited (cfg : ScanConfig) (stopAt : Option Nat)
    (st : ScanState) : (finish cfg stopAt st).visited = st.visited := rfl

theorem finish_dir_sizes (cfg : ScanConfig) (stopAt : Option Nat)
    (st : ScanState) :
    (finish cfg stopAt st).dir_sizes = st.dir_sizes := rfl

/-- Every completed run exits through `finish`, applied to a loop state
reachable from the initial one; any property preserved by the loop body
(and insensitive to the poll clock) therefore holds at the exit state. -/
theorem loop_reaches_finish (cfg : ScanConfig) (fs : FileSystem)
    (stopAt : Option Nat) {P : ScanState → Prop}
    (hiter : ∀ st, P st → P (iterate cfg fs stopAt st))
    (hclock : ∀ st, P st → P { st with clock := st.clock + 1 }) :
    ∀ (fuel : Nat) (st final : ScanState), P st →
      loop cfg fs stopAt fuel st = some final →
      ∃ stExit, P stExit ∧ final = finish cfg stopAt stExit := by
  intro fuel
  induction fuel with
  | zero =>
    intro st final hP hrun
    unfold loop at hrun
    by_cases hq : st.queue.isEmpty
    · rw [if_pos hq] at hrun
      exact ⟨st, hP, (Option.some.injEq _ _ ▸ hrun).symm⟩
    · rw [if_neg hq] at hrun
      by_cases hs : stopSet stopAt st.clock
      · rw [if_pos hs] at hrun
        exact ⟨_, hclock st hP, (Option.some.injEq _ _ ▸ hrun).symm⟩
      · rw [if_neg hs] at hrun
        exact absurd hrun (by simp)
  | succ f ih =>
    intro st final hP hrun
    unfold loop at hrun
    by_cases hq : st.queue.isEmpty
    · rw [if_pos hq] at hrun
      exact ⟨st, hP, (Option.some.injEq _ _ ▸ hrun).symm⟩
    · rw [if_neg hq] at hrun
      by_cases hs : stopSet stopAt st.clock
      · rw [if_pos hs] at hrun
        exact ⟨_, hclock st hP, (Option.some.injEq _ _ ▸ hrun).symm⟩
      · rw [if_neg hs] at hrun
        exact ih _ final (hiter _ (hclock st hP)) hrun

theorem filterSize_append (v : Nat) (x y : List (String × Nat)) :
    filterSize v (x ++ y) = filterSize v x ++ filterSize v y := by
  simp [filterSize, List.filter_append]

/-! ## Claim theorems: the ranker -/

/-- C2: for any finite sequence of `offer(path, size)` calls in any order,
the `TopFiles` sequence afterwards equals the `K` largest offered entries by
size, sorted descending by size (it is the `K`-prefix of the stable
descending sort of the offers: sorted, of length `min K n`, and every
retained entry is at least as large as every discarded one), and at every
intermediate point — i.e. after any prefix of the offers — its length is at
most `K`. -/
theorem topfiles_topK_correct (K : Nat) (offers : List (String × Nat)) :
    offerAll K offers = (sortDesc offers).take K ∧
    SortedDesc (offerAll K offers) ∧
    (offerAll K offers).length = min K offers.length ∧
    (offerAll K offers ++ (sortDesc offers).drop K).Perm offers ∧
    (∀ a ∈ offerAll K offers, ∀ b ∈ (sortDesc offers).drop K, b.2 ≤ a.2) ∧
    (∀ p rest, offers = p ++ rest → (offerAll K p).length ≤ K) := by
  have h1 := offerAll_eq_take_sortDesc K offers
  refine ⟨h1, ?_, ?_, ?_, ?_, ?_⟩
  · rw [h1]
    exact List.Pairwise.sublist (List.take_sublist K _) (sortDesc_sorted offers)
  · rw [h1, List.length_take, (sortDesc_perm offers).length_eq]
  · rw [h1, List.take_append_drop]
    exact sortDesc_perm offers
  · have hs : SortedDesc ((sortDesc offers).take K ++ (sortDesc offers).drop K) := by
      rw [List.take_append_drop]
      exact sortDesc_sorted offers
    intro a ha b hb
    rw [h1] at ha
    exact (List.pairwise_append.mp hs).2.2 a ha b hb
  · intro p rest hp
    rw [offerAll_eq_take_sortDesc, List.length_take]
    exact Nat.min_le_left _ _

theorem topfiles_topK_correct_witness :
    (offerAll 3 [("a", 10), ("b", 50)]).length ≤ 3 :=
  (topfiles_topK_correct 3
      [("a", 10), ("b", 50), ("c", 5), ("d", 100), ("e", 20)]).2.2.2.2.2
    [("a", 10), ("b", 50)] [("c", 5), ("d", 100), ("e", 20)] rfl

/-- C10: the top-files tie-break is deterministic and stable in favour of
earlier offers: for every size value `v`, the entries of size `v` retained
in the ranking are an initial segment — in original offer order — of all
offered entries of size `v`, for every sequence of offers. -/
theorem topfiles_tiebreak_stable (K v : Nat)
    (offers : List (String × Nat)) :
    ∃ rest, filterSize v offers =
      filterSize v (offerAll K offers) ++ rest := by
  refine ⟨filterSize v ((sortDesc offers).drop K), ?_⟩
  rw [offerAll_eq_take_sortDesc, ← filterSize_append, List.take_append_drop,
    filterSize_sortDesc]

/-! ## Claim theorems: the "Max results" clamp -/

/-- C8: for every string in the "Max results" field, `start_scan` clamps the
result cap before constructing the scanner: the parsed value is raised to 5
when below 5, non-parsing input (e.g. the empty field) falls back to 25, so
the `max_results` handed to `DirectoryScanner` is always at least 5; the
scanner's constructor stores the value verbatim, performing no
re-validation. -/
theorem max_results_clamped (s : String) :
    5 ≤ clampMaxResults s ∧
    (pyInt s = none → clampMaxResults s = 25) ∧
    (∀ n, pyInt s = some n →
      clampMaxResults s = if n < 5 then 5 else n) ∧
    (∀ (root : String) (K N : Nat),
      ({ root := root, max_results := K, update_every_dirs := N } :
        ScanConfig).max_results = K) := by
  refine ⟨?_, ?_, ?_, fun _ _ _ => rfl⟩
  · unfold clampMaxResults
    cases h : pyInt s with
    | none => simp
    | some n =>
      by_cases h5 : n < 5
      · simp [h5]
      · simpa [h5] using Nat.le_of_not_lt h5
  · intro h
    simp [clampMaxResults, h]
  · intro n h
    simp [clampMaxResults, h]

theorem max_results_clamped_witness :
    clampMaxResults "" = 25 ∧ clampMaxResults "3" = 5 ∧
      5 ≤ clampMaxResults "100" := by
  refine ⟨(max_results_clamped "").2.1 (by decide), ?_,
    (max_results_clamped "100").1⟩
  have h := (max_results_clamped "3").2.2.1 3 (by decide)
  simpa using h

/-! ## Claim theorems: cancellation -/

theorem stopSet_mono {stopAt : Option Nat} {c c' : Nat}
    (h : stopSet stopAt c = true) (hcc : c ≤ c') :
    stopSet stopAt c' = true := by
  cases stopAt with
  | none => simp [stopSet] at h
  | some k =>
    simp only [stopSet, decide_eq_true_eq] at h ⊢
    exact Nat.le_trans h hcc

/-- C7: once the cancellation signal is observed set, the outer loop never
dequeues another directory but proceeds straight to the final snapshot and
the `"Scan stopped."` completion, with `scanned_dirs` unchanged; and the
per-entry inner loop, polling the flag before each entry, processes no
further entry of the current directory.  Hence the remaining work after
cancellation is at most the in-flight directory's enumeration. -/
theorem cancellation_bounded (cfg : ScanConfig) (fs : FileSystem)
    (stopAt : Option Nat) (st : ScanState) (fuel : Nat)
    (hset : stopSet stopAt st.clock = true) :
    (st.queue ≠ [] →
      loop cfg fs stopAt fuel st =
        some (finish cfg stopAt { st with clock := st.clock + 1 })) ∧
    (∀ cur e es, procEntries cfg stopAt cur (e :: es) st =
      { st with clock := st.clock + 1 }) ∧
    (finish cfg stopAt { st with clock := st.clock + 1 }).scanned_dirs =
      st.scanned_dirs ∧
    (finish cfg stopAt { st with clock := st.clock + 1 }).events =
      st.events ++
        [ScanEvent.update
          { current_dir := "(done)", scanned_dirs := st.scanned_dirs,
            scanned_files := st.scanned_files,
            top_dirs := getTopDirs cfg st.dir_sizes,
            top_files := st.top_files },
         ScanEvent.done "Scan stopped."] := by
  refine ⟨?_, ?_, rfl, ?_⟩
  · intro hq
    have hq' : ¬st.queue.isEmpty = true := by simp [hq]
    cases fuel with
    | zero =>
      unfold loop
      rw [if_neg hq']
      simp only [hset, if_pos]
    | succ f =>
      unfold loop
      rw [if_neg hq']
      simp only [hset, if_pos]
  · intro cur e es
    unfold procEntries
    rw [if_pos hset]
  · rw [finish_events]
    have : stopSet stopAt ({ st with clock := st.clock + 1 } :
        ScanState).clock = true :=
      stopSet_mono hset (Nat.le_succ st.clock)
    simp [this]

theorem cancellation_bounded_witness :
    loop ⟨"r", 5, 25⟩ ⟨[], []⟩ (some 0) 5 (initState ⟨"r", 5, 25⟩) =
      some (finish ⟨"r", 5, 25⟩ (some 0)
        { initState ⟨"r", 5, 25⟩ with clock := 1 }) :=
  (cancellation_bounded ⟨"r", 5, 25⟩ ⟨[], []⟩ (some 0) _ 5 (by decide)).1
    (by decide)

/-! ## Claim theorems: completion protocol -/

theorem iterate_events (cfg : ScanConfig) (fs : FileSystem)
    (stopAt : Option Nat) (st : ScanState) :
    (iterate cfg fs stopAt st).events = st.events ∨
      ∃ u, (iterate cfg fs stopAt st).events =
        st.events ++ [ScanEvent.update u] := by
  cases hq : st.queue with
  | nil => rw [iterate_nil _ _ _ hq]; exact Or.inl rfl
  | cons cur rest =>
    by_cases hv : fs.canon cur ∈ st.visited
    · rw [iterate_skip _ _ _ hq hv]
      exact Or.inl rfl
    · rw [iterate_visit _ _ _ hq hv]
      rcases cadence_events cfg cur
          (enumDir cfg fs stopAt cur (visitState fs cur rest st)) with h | h
      · rw [h, enumDir_events]
        exact Or.inl rfl
      · rw [h, enumDir_events]
        exact Or.inr ⟨_, rfl⟩

/-- C4: every completed run invokes `on_done` exactly once, as the very
last event, immediately after the final snapshot; the message is either
`"Scan stopped."` or `"Scan finished."`, chosen by the last `is_set()` poll
(so it is `"Scan finished."` whenever cancellation was never requested, and
`"Scan stopped."` exactly when the flag was set by then). -/
theorem completion_protocol (cfg : ScanConfig) (fs : FileSystem)
    (stopAt : Option Nat) (fuel : Nat) (final : ScanState)
    (h : loop cfg fs stopAt fuel (initState cfg) = some final) :
    ∃ pre u msg,
      final.events = pre ++ [ScanEvent.update u, ScanEvent.done msg] ∧
      (∀ e ∈ pre, ∃ u', e = ScanEvent.update u') ∧
      (msg = "Scan stopped." ∨ msg = "Scan finished.") ∧
      msg = (if stopSet stopAt (final.clock - 1) then "Scan stopped."
             else "Scan finished.") ∧
      (stopAt = none → msg = "Scan finished.") := by
  have hinv : ∀ st : ScanState,
      (∀ e ∈ st.events, ∃ u', e = ScanEvent.update u') →
      ∀ e ∈ (iterate cfg fs stopAt st).events, ∃ u', e = ScanEvent.update u' := by
    intro st hP e he
    rcases iterate_events cfg fs stopAt st with hsame | ⟨u, happ⟩
    · exact hP e (hsame ▸ he)
    · rw [happ] at he
      rcases List.mem_append.mp he with he | he
      · exact hP e he
      · exact ⟨u, by simpa using he⟩
  obtain ⟨stExit, hPexit, hfinal⟩ :=
    loop_reaches_finish cfg fs stopAt hinv (fun st hP => hP) fuel
      (initState cfg) final (by simp [initState]) h
  have hclock : final.clock = stExit.clock + 1 := by rw [hfinal]; rfl
  refine ⟨stExit.events,
    ⟨"(done)", stExit.scanned_dirs, stExit.scanned_files,
      getTopDirs cfg stExit.dir_sizes, stExit.top_files⟩,
    if stopSet stopAt stExit.clock then "Scan stopped." else "Scan finished.",
    ?_, hPexit, ?_, ?_, ?_⟩
  · rw [hfinal, finish_events]
  · by_cases hs : stopSet stopAt stExit.clock <;> simp [hs]
  · rw [hclock]
    simp
  · intro hnone
    subst hnone
    simp [stopSet]

theorem completion_protocol_witness :
    ∃ pre u msg,
      (finish ⟨"R", 5, 25⟩ none
          { initState ⟨"R", 5, 25⟩ with
            queue := []
            visited := ["R"]
            scanned_dirs := 1
            dir_sizes := [("R", 0)]
            dirs_since_update := 1
            clock := 1 }).events =
        pre ++ [ScanEvent.update u, ScanEvent.done msg] ∧
      (∀ e ∈ pre, ∃ u', e = ScanEvent.update u') ∧
      (msg = "Scan stopped." ∨ msg = "Scan finished.") ∧
      msg = (if stopSet none
          ((finish ⟨"R", 5, 25⟩ none
            { initState ⟨"R", 5, 25⟩ with
              queue := []
              visited := ["R"]
              scanned_dirs := 1
              dir_sizes := [("R", 0)]
              dirs_since_update := 1
              clock := 1 }).clock - 1) then "Scan stopped."
        else "Scan finished.") ∧
      (none = (none : Option Nat) → msg = "Scan finished.") := by
  refine completion_protocol ⟨"R", 5, 25⟩ ⟨[], []⟩ none 1 _ ?_
  decide

/-! ## Claim theorems: the `"(done)"` sentinel -/

theorem updateEvents_append (a b : List ScanEvent) :
    updateEvents (a ++ b) = updateEvents a ++ updateEvents b := by
  simp [updateEvents, List.filterMap_append]

theorem alookup_ensureKey_isSome (k : String) (m : List (String × Nat))
    {d : String} (hd : (alookup m d).isSome) :
    (alookup (ensureKey k m) d).isSome := by
  by_cases hdk : d = k
  · subst hdk
    rw [alookup_ensureKey_self]
    rfl
  · rw [alookup_ensureKey_ne hdk]
    exact hd

theorem enumDir_dir_sizes_isSome (cfg : ScanConfig) (fs : FileSystem)
    (stopAt : Option Nat) (cur : String) (st : ScanState) {d : String}
    (hd : (alookup st.dir_sizes d).isSome) :
    (alookup (enumDir cfg fs stopAt cur st).dir_sizes d).isSome := by
  rcases Option.isSome_iff_exists.mp hd with ⟨v, hv⟩
  rcases enumDir_dir_sizes_mono cfg fs stopAt cur st hv with ⟨v', hv', _⟩
  simp [hv']

/-- The invariant behind C9: every snapshot emitted so far names a
directory whose aggregate entry exists (i.e. a directory the engine has
actually visited), and the aggregate table only grows. -/
theorem iterate_update_named_dirs (cfg : ScanConfig) (fs : FileSystem)
    (stopAt : Option Nat) (st : ScanState)
    (hP : ∀ u ∈ updateEvents st.events,
      (alookup st.dir_sizes u.current_dir).isSome) :
    ∀ u ∈ updateEvents (iterate cfg fs stopAt st).events,
      (alookup (iterate cfg fs stopAt st).dir_sizes u.current_dir).isSome := by
  cases hq : st.queue with
  | nil =>
    rw [iterate_nil _ _ _ hq]
    exact hP
  | cons cur rest =>
    by_cases hv : fs.canon cur ∈ st.visited
    · rw [iterate_skip _ _ _ hq hv]
      exact hP
    · rw [iterate_visit _ _ _ hq hv]
      set stE := enumDir cfg fs stopAt cur (visitState fs cur rest st) with hstE
      have hgrow : ∀ d : String, (alookup st.dir_sizes d).isSome →
          (alookup stE.dir_sizes d).isSome := by
        intro d hd
        rw [hstE]
        exact enumDir_dir_sizes_isSome cfg fs stopAt cur _
          (alookup_ensureKey_isSome cur st.dir_sizes hd)
      have hcur : (alookup stE.dir_sizes cur).isSome := by
        rw [hstE]
        refine enumDir_dir_sizes_isSome cfg fs stopAt cur _ ?_
        show (alookup (ensureKey cur st.dir_sizes) cur).isSome
        rw [alookup_ensureKey_self]
        rfl
      have hEev : stE.events = st.events := by
        rw [hstE]
        exact enumDir_events cfg fs stopAt cur _
      unfold cadence
      by_cases hfire : cfg.update_every_dirs ≤ stE.dirs_since_update
      · rw [if_pos hfire]
        intro u hu
        simp only [sendUpdate, updateEvents_append, hEev] at hu ⊢
        rcases List.mem_append.mp hu with hu | hu
        · exact hgrow _ (hP u hu)
        · have : u.current_dir = cur := by
            simp [updateEvents] at hu
            rw [hu]
          rw [this]
          exact hcur
      · rw [if_neg hfire]
        intro u hu
        rw [hEev] at hu
        exact hgrow _ (hP u hu)

/-- C9 (amended): in every completed run the last snapshot — and only by
path collision any earlier one — carries the sentinel `current_dir =
"(done)"`: the final `on_update` always does, while every periodic snapshot
carries the traversal path of the directory processed just before it (a
directory present in the aggregate table, so the sentinel can coincide with
a periodic snapshot only when a scanned directory is literally named
`"(done)"`). -/
theorem final_update_sentinel (cfg : ScanConfig) (fs : FileSystem)
    (stopAt : Option Nat) (fuel : Nat) (final : ScanState)
    (h : loop cfg fs stopAt fuel (initState cfg) = some final) :
    ∃ us ufinal, updateEvents final.events = us ++ [ufinal] ∧
      ufinal.current_dir = "(done)" ∧
      ∀ u ∈ us, (alookup final.dir_sizes u.current_dir).isSome := by
  obtain ⟨stExit, hPexit, hfinal⟩ :=
    loop_reaches_finish cfg fs stopAt (iterate_update_named_dirs cfg fs stopAt)
      (fun st hP => hP) fuel (initState cfg) final
      (by simp [initState, updateEvents]) h
  refine ⟨updateEvents stExit.events,
    ⟨"(done)", stExit.scanned_dirs, stExit.scanned_files,
      getTopDirs cfg stExit.dir_sizes, stExit.top_files⟩, ?_, rfl, ?_⟩
  · rw [hfinal, finish_events, updateEvents_append]
    by_cases hs : stopSet stopAt stExit.clock <;> simp [hs, updateEvents]
  · intro u hu
    rw [hfinal, finish_dir_sizes]
    exact hPexit u hu

theorem final_update_sentinel_witness :
    ∃ us ufinal,
      updateEvents (finish ⟨"R", 5, 25⟩ none
        { initState ⟨"R", 5, 25⟩ with
          queue := []
          visited := ["R"]
          scanned_dirs := 1
          dir_sizes := [("R", 0)]
          dirs_since_update := 1
          clock := 1 }).events = us ++ [ufinal] ∧
      ufinal.current_dir = "(done)" ∧
      ∀ u ∈ us,
        (alookup (finish ⟨"R", 5, 25⟩ none
          { initState ⟨"R", 5, 25⟩ with
            queue := []
            visited := ["R"]
            scanned_dirs := 1
            dir_sizes := [("R", 0)]
            dirs_since_update := 1
            clock := 1 }).dir_sizes u.current_dir).isSome := by
  refine final_update_sentinel ⟨"R", 5, 25⟩ ⟨[], []⟩ none 1 _ ?_
  decide

/-- C9 counterexample: with root literally named `"(done)"` and cadence 1,
the run's first snapshot is periodic (it is not the last update: two
updates are emitted) yet its `current_dir` is the sentinel string
`"(done)"`, refuting "no periodic snapshot ever has `current_dir` equal to
`\"(done)\"`". -/
theorem periodic_sentinel_collision :
    (run ⟨"(done)", 5, 1⟩ ⟨[], []⟩ none 1).map ScanState.events =
      some [ScanEvent.update ⟨"(done)", 1, 0, [("(done)", 0)], []⟩,
            ScanEvent.update ⟨"(done)", 1, 0, [("(done)", 0)], []⟩,
            ScanEvent.done "Scan finished."] := by
  decide

/-! ## Claim theorems: update cadence -/

/-- The invariant behind C6: between reports the period counter stays below
the cadence `N`, `scanned_dirs` splits as `(reports so far) · N` plus the
current period, and the reports so far carried exactly `N, 2N, 3N, …`. -/
theorem iterate_cadence_inv (cfg : ScanConfig) (fs : FileSystem)
    (stopAt : Option Nat) (hN : 1 ≤ cfg.update_every_dirs) (st : ScanState)
    (hP : st.dirs_since_update < cfg.update_every_dirs ∧
      ∃ m, (updateEvents st.events).map ScanUpdate.scanned_dirs =
          (List.range m).map (fun i => (i + 1) * cfg.update_every_dirs) ∧
        st.scanned_dirs = m * cfg.update_every_dirs + st.dirs_since_update) :
    (iterate cfg fs stopAt st).dirs_since_update < cfg.update_every_dirs ∧
    ∃ m, (updateEvents (iterate cfg fs stopAt st).events).map
        ScanUpdate.scanned_dirs =
        (List.range m).map (fun i => (i + 1) * cfg.update_every_dirs) ∧
      (iterate cfg fs stopAt st).scanned_dirs =
        m * cfg.update_every_dirs + (iterate cfg fs stopAt st).dirs_since_update := by
  obtain ⟨hds, m, hmap, hsc⟩ := hP
  cases hq : st.queue with
  | nil =>
    rw [iterate_nil _ _ _ hq]
    exact ⟨hds, m, hmap, hsc⟩
  | cons cur rest =>
    by_cases hv : fs.canon cur ∈ st.visited
    · rw [iterate_skip _ _ _ hq hv]
      exact ⟨hds, m, hmap, hsc⟩
    · rw [iterate_visit _ _ _ hq hv]
      set stE := enumDir cfg fs stopAt cur (visitState fs cur rest st) with hstE
      have hEds : stE.dirs_since_update = st.dirs_since_update + 1 := by
        rw [hstE, enumDir_dirs_since_update]
        rfl
      have hEsc : stE.scanned_dirs = st.scanned_dirs + 1 := by
        rw [hstE, enumDir_scanned_dirs]
        rfl
      have hEev : stE.events = st.events := by
        rw [hstE]
        exact enumDir_events cfg fs stopAt cur _
      unfold cadence
      by_cases hfire : cfg.update_every_dirs ≤ stE.dirs_since_update
      · rw [if_pos hfire]
        have heq : st.dirs_since_update + 1 = cfg.update_every_dirs := by
          rw [hEds] at hfire
          omega
        have hval : stE.scanned_dirs = (m + 1) * cfg.update_every_dirs := by
          rw [hEsc, hsc, Nat.succ_mul]
          omega
        have hup : updateEvents ((sendUpdate cfg cur stE).events) =
            updateEvents stE.events ++
              [⟨cur, stE.scanned_dirs, stE.scanned_files,
                getTopDirs cfg stE.dir_sizes, stE.top_files⟩] := by
          simp [sendUpdate, updateEvents_append, updateEvents]
        refine ⟨hN, m + 1, ?_, ?_⟩
        · show (updateEvents ((sendUpdate cfg cur stE).events)).map
              ScanUpdate.scanned_dirs = _
          rw [hup, List.map_append, hEev, hmap, List.range_succ,
            List.map_append]
          simp [hval]
        · show stE.scanned_dirs = (m + 1) * cfg.update_every_dirs + 0
          omega
      · rw [if_neg hfire]
        rw [hEds] at hfire ⊢
        refine ⟨by omega, m, by rw [hEev]; exact hmap, by rw [hEsc, hsc]; omega⟩

/-- C6: with cadence `N = update_every_dirs ≥ 1`, the periodic snapshots of
a completed run carry `scanned_dirs` values exactly `N, 2N, …, mN` (one
report after every `N`-th newly visited directory, consecutive reports
differing by exactly `N`, strictly increasing), and the one final report
carries the final `scanned_dirs`, which exceeds the last periodic report by
less than `N`. -/
theorem update_cadence (cfg : ScanConfig) (fs : FileSystem)
    (stopAt : Option Nat) (fuel : Nat) (final : ScanState)
    (hN : 1 ≤ cfg.update_every_dirs)
    (h : loop cfg fs stopAt fuel (initState cfg) = some final) :
    ∃ us ufinal m, updateEvents final.events = us ++ [ufinal] ∧
      us.map ScanUpdate.scanned_dirs =
        (List.range m).map (fun i => (i + 1) * cfg.update_every_dirs) ∧
      ufinal.scanned_dirs = final.scanned_dirs ∧
      m * cfg.update_every_dirs ≤ final.scanned_dirs ∧
      final.scanned_dirs < (m + 1) * cfg.update_every_dirs := by
  obtain ⟨stExit, hPexit, hfinal⟩ :=
    loop_reaches_finish cfg fs stopAt (iterate_cadence_inv cfg fs stopAt hN)
      (fun st hP => hP) fuel (initState cfg) final
      (by exact ⟨hN, 0, by simp [initState, updateEvents],
        by simp [initState]⟩) h
  obtain ⟨hds, m, hmap, hsc⟩ := hPexit
  have hfsc : final.scanned_dirs = stExit.scanned_dirs := by
    rw [hfinal, finish_scanned_dirs]
  refine ⟨updateEvents stExit.events,
    ⟨"(done)", stExit.scanned_dirs, stExit.scanned_files,
      getTopDirs cfg stExit.dir_sizes, stExit.top_files⟩, m, ?_, hmap, ?_, ?_, ?_⟩
  · rw [hfinal, finish_events, updateEvents_append]
    by_cases hs : stopSet stopAt stExit.clock <;> simp [hs, updateEvents]
  · rw [hfsc]
  · rw [hfsc, hsc]
    exact Nat.le_add_right _ _
  · rw [hfsc, hsc]
    calc m * cfg.update_every_dirs + stExit.dirs_since_update
        < m * cfg.update_every_dirs + cfg.update_every_dirs :=
          Nat.add_lt_add_left hds _
      _ = (m + 1) * cfg.update_every_dirs := by ring

theorem update_cadence_witness :
    ∃ us ufinal m,
      updateEvents (finish ⟨"R", 5, 25⟩ none
        { initState ⟨"R", 5, 25⟩ with
          queue := []
          visited := ["R"]
          scanned_dirs := 1
          dir_sizes := [("R", 0)]
          dirs_since_update := 1
          clock := 1 }).events = us ++ [ufinal] ∧
      us.map ScanUpdate.scanned_dirs =
        (List.range m).map (fun i => (i + 1) * 25) ∧
      ufinal.scanned_dirs = (finish ⟨"R", 5, 25⟩ none
        { initState ⟨"R", 5, 25⟩ with
          queue := []
          visited := ["R"]
          scanned_dirs := 1
          dir_sizes := [("R", 0)]
          dirs_since_update := 1
          clock := 1 }).scanned_dirs ∧
      m * 25 ≤ (finish ⟨"R", 5, 25⟩ none
        { initState ⟨"R", 5, 25⟩ with
          queue := []
          visited := ["R"]
          scanned_dirs := 1
          dir_sizes := [("R", 0)]
          dirs_since_update := 1
          clock := 1 }).scanned_dirs ∧
      (finish ⟨"R", 5, 25⟩ none
        { initState ⟨"R", 5, 25⟩ with
          queue := []
          visited := ["R"]
          scanned_dirs := 1
          dir_sizes := [("R", 0)]
          dirs_since_update := 1
          clock := 1 }).scanned_dirs < (m + 1) * 25 := by
  refine update_cadence ⟨"R", 5, 25⟩ ⟨[], []⟩ none 1 _ (by decide) ?_
  decide

/-! ## Claim theorems: directory aggregates -/

theorem alookup_ensureKey_some {k d : String} {m : List (String × Nat)}
    {v : Nat} (h : alookup m d = some v) :
    alookup (ensureKey k m) d = some v := by
  by_cases hdk : d = k
  · subst hdk
    rw [alookup_ensureKey_self, h]
    rfl
  · rw [alookup_ensureKey_ne hdk]
    exact h

/-- Aggregate entries never lose value across a whole outer-loop iteration,
for every cancellation schedule. -/
theorem iterate_dir_sizes_mono (cfg : ScanConfig) (fs : FileSystem)
    (stopAt : Option Nat) (st : ScanState) {d : String} {v : Nat}
    (h : alookup st.dir_sizes d = some v) :
    ∃ v', alookup (iterate cfg fs stopAt st).dir_sizes d = some v' ∧
      v ≤ v' := by
  cases hq : st.queue with
  | nil =>
    rw [iterate_nil _ _ _ hq]
    exact ⟨v, h, Nat.le_refl v⟩
  | cons cur rest =>
    by_cases hv : fs.canon cur ∈ st.visited
    · rw [iterate_skip _ _ _ hq hv]
      exact ⟨v, h, Nat.le_refl v⟩
    · rw [iterate_visit _ _ _ hq hv, cadence_dir_sizes]
      exact enumDir_dir_sizes_mono cfg fs stopAt cur _
        (show alookup (ensureKey cur st.dir_sizes) d = some v from
          alookup_ensureKey_some h)

/-- The invariant behind C3: every existing aggregate entry already holds
its directory's exact direct-file total, and belongs to a visited
directory (so no later iteration can touch it again). -/
theorem iterate_aggregate_inv (cfg : ScanConfig) (fs : FileSystem)
    (st : ScanState)
    (hP : ∀ d v, alookup st.dir_sizes d = some v →
      v = dirFileSum fs d ∧ fs.canon d ∈ st.visited) :
    ∀ d v, alookup (iterate cfg fs none st).dir_sizes d = some v →
      v = dirFileSum fs d ∧ fs.canon d ∈ (iterate cfg fs none st).visited := by
  cases hq : st.queue with
  | nil =>
    rw [iterate_nil _ _ _ hq]
    exact hP
  | cons cur rest =>
    by_cases hv : fs.canon cur ∈ st.visited
    · rw [iterate_skip _ _ _ hq hv]
      exact hP
    · rw [iterate_visit _ _ _ hq hv]
      intro d v hd
      rw [cadence_dir_sizes] at hd
      have hvis : (cadence cfg cur
          (enumDir cfg fs none cur (visitState fs cur rest st))).visited =
          fs.canon cur :: st.visited := by
        rw [cadence_visited, enumDir_visited]
        rfl
      rw [hvis]
      by_cases hdc : d = cur
      · subst hdc
        have hnone : alookup st.dir_sizes d = none := by
          cases hcase : alookup st.dir_sizes d with
          | none => rfl
          | some w => exact absurd (hP d w hcase).2 hv
        have h0 : alookup (visitState fs d rest st).dir_sizes d = some 0 := by
          show alookup (ensureKey d st.dir_sizes) d = some 0
          rw [alookup_ensureKey_self, hnone]
          rfl
        have hsum := enumDir_dir_sizes_self_none cfg fs d
          (visitState fs d rest st) h0
        rw [hsum] at hd
        have : v = 0 + dirFileSum fs d := (Option.some.injEq _ _).mp hd.symm
        exact ⟨by omega, List.mem_cons_self _ _⟩
      · rw [enumDir_dir_sizes_ne cfg fs none hdc,
          show alookup (visitState fs cur rest st).dir_sizes d =
            alookup (ensureKey cur st.dir_sizes) d from rfl,
          alookup_ensureKey_ne hdc] at hd
        rcases hP d v hd with ⟨hval, hmem⟩
        exact ⟨hval, List.mem_cons_of_mem _ hmem⟩

/-- C3: in a cancellation-free scan, every aggregate entry of the final
state equals the exact sum of the sizes of its directory's *direct*
regular-file children (files inside subdirectories are excluded: only the
visiting iteration adds to its own key); the entry exists with value 0 from
the moment the directory is visited even when enumeration finds no files
(or fails); and an existing entry's value never decreases across an
iteration, whatever the cancellation schedule. -/
theorem aggregate_direct_children (cfg : ScanConfig) (fs : FileSystem)
    (fuel : Nat) (final : ScanState)
    (h : loop cfg fs none fuel (initState cfg) = some final) :
    (∀ d v, alookup final.dir_sizes d = some v → v = dirFileSum fs d) ∧
    (∀ (st : ScanState) (cur : String) (rest : List String),
      st.queue = cur :: rest → fs.canon cur ∉ st.visited →
      alookup st.dir_sizes cur = none →
      alookup (iterate cfg fs none st).dir_sizes cur =
        some (dirFileSum fs cur)) ∧
    (∀ (stopAt : Option Nat) (st : ScanState) (d : String) (v : Nat),
      alookup st.dir_sizes d = some v →
      ∃ v', alookup (iterate cfg fs stopAt st).dir_sizes d = some v' ∧
        v ≤ v') := by
  refine ⟨?_, ?_, fun stopAt st d v hv => iterate_dir_sizes_mono cfg fs stopAt st hv⟩
  · obtain ⟨stExit, hPexit, hfinal⟩ :=
      loop_reaches_finish cfg fs none (iterate_aggregate_inv cfg fs)
        (fun st hP => hP) fuel (initState cfg) final
        (by intro d v hd; simp [initState, alookup] at hd) h
    intro d v hd
    rw [hfinal, finish_dir_sizes] at hd
    exact (hPexit d v hd).1
  · intro st cur rest hq hv hnone
    rw [iterate_visit _ _ _ hq hv, cadence_dir_sizes]
    have h0 : alookup (visitState fs cur rest st).dir_sizes cur = some 0 := by
      show alookup (ensureKey cur st.dir_sizes) cur = some 0
      rw [alookup_ensureKey_self, hnone]
      rfl
    have hsum := enumDir_dir_sizes_self_none cfg fs cur
      (visitState fs cur rest st) h0
    rw [hsum, Nat.zero_add]

theorem aggregate_direct_children_witness :
    300 = dirFileSum demoFS "r/A" :=
  (aggregate_direct_children demoCfg demoFS 5 demoFinal (by decide)).1
    "r/A" 300 (by decide)

/-! ## Claim theorems: visited-set invariant and termination -/

theorem alookup_mem {α : Type} {m : List (String × α)} {k : String} {v : α}
    (h : alookup m k = some v) : (k, v) ∈ m := by
  induction m with
  | nil => simp [alookup] at h
  | cons p rest ih =>
    obtain ⟨a, b⟩ := p
    by_cases hak : a = k
    · subst hak
      simp [alookup] at h
      simp [h]
    · simp [alookup, hak] at h
      exact List.mem_cons_of_mem _ (ih h)

theorem mem_allEntryPaths {fs : FileSystem} {cur : String}
    {es : List FsEntry} (h : fs.listDir cur = some es) {p : String}
    (hp : p ∈ es.map FsEntry.path) : p ∈ allEntryPaths fs := by
  unfold allEntryPaths
  refine List.mem_flatten_of_mem ?_ hp
  exact List.mem_map_of_mem (fun q => q.2.map FsEntry.path) (alookup_mem h)

theorem entries_length_le {fs : FileSystem} {cur : String}
    {es : List FsEntry} (h : fs.listDir cur = some es) :
    es.length ≤ (allEntryPaths fs).length := by
  have hsub : List.Sublist (es.map FsEntry.path) (allEntryPaths fs) :=
    List.sublist_flatten_of_mem
      (List.mem_map_of_mem (fun q => q.2.map FsEntry.path) (alookup_mem h))
  simpa using hsub.length_le

theorem enumDir_queue (cfg : ScanConfig) (fs : FileSystem)
    (stopAt : Option Nat) (cur : String) (st : ScanState) :
    ∃ q', (enumDir cfg fs stopAt cur st).queue = st.queue ++ q' ∧
      q'.length ≤ (allEntryPaths fs).length ∧
      ∀ p ∈ q', p ∈ allEntryPaths fs := by
  unfold enumDir
  cases h : fs.listDir cur with
  | none => exact ⟨[], by simp⟩
  | some es =>
    rcases procEntries_queue cfg stopAt cur es st with ⟨q', hq, hlen, hmem⟩
    exact ⟨q', hq, Nat.le_trans hlen (entries_length_le h),
      fun p hp => mem_allEntryPaths h (hmem p hp)⟩

theorem iterate_queue_inv (cfg : ScanConfig) (fs : FileSystem)
    (stopAt : Option Nat) (st : ScanState)
    (hQ : ∀ q ∈ st.queue, q ∈ candPaths cfg fs) :
    ∀ q ∈ (iterate cfg fs stopAt st).queue, q ∈ candPaths cfg fs := by
  cases hq : st.queue with
  | nil =>
    rw [iterate_nil _ _ _ hq]
    exact fun q hqq => hQ q hqq
  | cons cur rest =>
    by_cases hv : fs.canon cur ∈ st.visited
    · rw [iterate_skip _ _ _ hq hv]
      intro q hqq
      exact hQ q (hq ▸ List.mem_cons_of_mem cur hqq)
    · rw [iterate_visit _ _ _ hq hv]
      intro q hqq
      rw [cadence_queue] at hqq
      rcases enumDir_queue cfg fs stopAt cur (visitState fs cur rest st) with
        ⟨q', hqeq, _, hmem⟩
      rw [hqeq] at hqq
      rcases List.mem_append.mp hqq with hqq | hqq
      · exact hQ q (hq ▸ List.mem_cons_of_mem cur hqq)
      · exact List.mem_cons_of_mem _ (hmem q hqq)

theorem iterate_measure_lt (cfg : ScanConfig) (fs : FileSystem)
    (stopAt : Option Nat) (st : ScanState) (hq : st.queue ≠ [])
    (hQ : ∀ q ∈ st.queue, q ∈ candPaths cfg fs) :
    loopMeasure cfg fs (iterate cfg fs stopAt st) <
      loopMeasure cfg fs st := by
  cases hqe : st.queue with
  | nil => exact absurd hqe hq
  | cons cur rest =>
    by_cases hv : fs.canon cur ∈ st.visited
    · rw [iterate_skip _ _ _ hqe hv]
      unfold loopMeasure unvisited
      simp [hqe]
    · rw [iterate_visit _ _ _ hqe hv]
      have hvis : (cadence cfg cur
          (enumDir cfg fs stopAt cur (visitState fs cur rest st))).visited =
          fs.canon cur :: st.visited := by
        rw [cadence_visited, enumDir_visited]
        rfl
      rcases enumDir_queue cfg fs stopAt cur (visitState fs cur rest st) with
        ⟨q', hqeq, hlen, _⟩
      have hque : (cadence cfg cur
          (enumDir cfg fs stopAt cur (visitState fs cur rest st))).queue =
          rest ++ q' := by
        rw [cadence_queue, hqeq]
        rfl
      have hcanon : fs.canon cur ∈
          ((candPaths cfg fs).map fs.canon).toFinset :=
        List.mem_toFinset.mpr
          (List.mem_map_of_mem fs.canon (hQ cur (hqe ▸ List.mem_cons_self _ _)))
      have hin : fs.canon cur ∈ unvisited cfg fs st :=
        Finset.mem_sdiff.mpr ⟨hcanon, fun hc => hv (List.mem_toFinset.mp hc)⟩
      have hcard : (unvisited cfg fs (cadence cfg cur
          (enumDir cfg fs stopAt cur (visitState fs cur rest st)))).card <
          (unvisited cfg fs st).card := by
        refine Finset.card_lt_card ?_
        unfold unvisited
        rw [hvis, List.toFinset_cons]
        refine (Finset.ssubset_iff_of_subset
          (Finset.sdiff_subset_sdiff (Finset.Subset.refl _)
            (Finset.subset_insert _ _))).mpr ?_
        refine ⟨fs.canon cur, hin, ?_⟩
        simp
      have hmul : ((allEntryPaths fs).length + 1) *
          ((unvisited cfg fs (cadence cfg cur
            (enumDir cfg fs stopAt cur (visitState fs cur rest st)))).card + 1) ≤
          ((allEntryPaths fs).length + 1) * (unvisited cfg fs st).card :=
        Nat.mul_le_mul_left _ hcard
      have hexp : ((allEntryPaths fs).length + 1) *
          ((unvisited cfg fs (cadence cfg cur
            (enumDir cfg fs stopAt cur (visitState fs cur rest st)))).card + 1) =
          ((allEntryPaths fs).length + 1) *
            (unvisited cfg fs (cadence cfg cur
              (enumDir cfg fs stopAt cur (visitState fs cur rest st)))).card +
          ((allEntryPaths fs).length + 1) := Nat.mul_succ _ _
      unfold loopMeasure
      rw [hque, hqe, List.length_append, List.length_cons]
      have hE := hlen
      omega

/-- With fuel at least the loop measure, the scan completes. -/
theorem loop_isSome (cfg : ScanConfig) (fs : FileSystem)
    (stopAt : Option Nat) :
    ∀ (n : Nat) (st : ScanState), loopMeasure cfg fs st ≤ n →
      (∀ q ∈ st.queue, q ∈ candPaths cfg fs) →
      (loop cfg fs stopAt n st).isSome := by
  intro n
  induction n with
  | zero =>
    intro st hμ hQ
    have hql : st.queue.length = 0 := by
      have : st.queue.length ≤ loopMeasure cfg fs st :=
        Nat.le_add_left _ _
      omega
    unfold loop
    simp [List.length_eq_zero.mp hql]
  | succ n ih =>
    intro st hμ hQ
    unfold loop
    by_cases hq : st.queue.isEmpty
    · simp [hq]
    · rw [if_neg hq]
      by_cases hs : stopSet stopAt st.clock
      · simp [hs]
      · rw [if_neg (by simp [hs])]
        have hne : st.queue ≠ [] := by simpa using hq
        have hμeq : loopMeasure cfg fs { st with clock := st.clock + 1 } =
            loopMeasure cfg fs st := rfl
        have hQ' : ∀ q ∈ ({ st with clock := st.clock + 1 } :
            ScanState).queue, q ∈ candPaths cfg fs := hQ
        have hlt := iterate_measure_lt cfg fs stopAt
          { st with clock := st.clock + 1 } hne hQ'
        refine ih _ (by omega) ?_
        exact iterate_queue_inv cfg fs stopAt _ hQ'

/-- The invariant behind C1: `scanned_dirs` counts exactly the distinct
canonical directories in the visited set. -/
theorem iterate_visited_inv (cfg : ScanConfig) (fs : FileSystem)
    (stopAt : Option Nat) (st : ScanState)
    (hP : st.scanned_dirs = st.visited.length ∧ st.visited.Nodup) :
    (iterate cfg fs stopAt st).scanned_dirs =
      (iterate cfg fs stopAt st).visited.length ∧
    (iterate cfg fs stopAt st).visited.Nodup := by
  cases hq : st.queue with
  | nil =>
    rw [iterate_nil _ _ _ hq]
    exact hP
  | cons cur rest =>
    by_cases hv : fs.canon cur ∈ st.visited
    · rw [iterate_skip _ _ _ hq hv]
      exact hP
    · rw [iterate_visit _ _ _ hq hv]
      have hvis : (cadence cfg cur
          (enumDir cfg fs stopAt cur (visitState fs cur rest st))).visited =
          fs.canon cur :: st.visited := by
        rw [cadence_visited, enumDir_visited]
        rfl
      have hsc : (cadence cfg cur
          (enumDir cfg fs stopAt cur (visitState fs cur rest st))).scanned_dirs =
          st.scanned_dirs + 1 := by
        rw [cadence_scanned_dirs, enumDir_scanned_dirs]
        rfl
      rw [hvis, hsc, List.length_cons, hP.1]
      exact ⟨rfl, List.nodup_cons.mpr ⟨hv, hP.2⟩⟩

/-- C1: for every configuration, filesystem and cancellation schedule there
is enough fuel for the scan to complete (termination also in the presence
of link cycles: the visited-set guard makes the measure drop every
iteration), and in the final state the visited canonical directories are
pairwise distinct with `scanned_dirs` equal to their number — each
canonical directory is enumerated at most once and contributes exactly one
increment, however many queue entries resolved to it. -/
theorem canonical_visited_once (cfg : ScanConfig) (fs : FileSystem)
    (stopAt : Option Nat) :
    ∃ fuel final, loop cfg fs stopAt fuel (initState cfg) = some final ∧
      final.visited.Nodup ∧
      final.scanned_dirs = final.visited.length := by
  have hQ0 : ∀ q ∈ (initState cfg).queue, q ∈ candPaths cfg fs := by
    intro q hq
    simp only [initState, List.mem_singleton] at hq
    subst hq
    exact List.mem_cons_self _ _
  have hsome := loop_isSome cfg fs stopAt
    (loopMeasure cfg fs (initState cfg)) (initState cfg) (Nat.le_refl _) hQ0
  obtain ⟨final, hfinal⟩ := Option.isSome_iff_exists.mp hsome
  obtain ⟨stExit, hPexit, hfin⟩ :=
    loop_reaches_finish cfg fs stopAt (iterate_visited_inv cfg fs stopAt)
      (fun st hP => hP) _ (initState cfg) final (by simp [initState]) hfinal
  refine ⟨_, final, hfinal, ?_, ?_⟩
  · rw [hfin, finish_visited]
    exact hPexit.2
  · rw [hfin, finish_scanned_dirs, finish_visited]
    exact hPexit.1

/-! ## Claim theorems: invalid / inaccessible root -/

theorem finish_scanned_files (cfg : ScanConfig) (stopAt : Option Nat)
    (st : ScanState) :
    (finish cfg stopAt st).scanned_files = st.scanned_files := rfl

theorem finish_top_files (cfg : ScanConfig) (stopAt : Option Nat)
    (st : ScanState) :
    (finish cfg stopAt st).top_files = st.top_files := rfl

theorem cadence_scanned_files (cfg : ScanConfig) (cur : String)
    (st : ScanState) :
    (cadence cfg cur st).scanned_files = st.scanned_files := by
  unfold cadence
  by_cases h : cfg.update_every_dirs ≤ st.dirs_since_update <;>
    simp [h, sendUpdate]

theorem cadence_top_files (cfg : ScanConfig) (cur : String)
    (st : ScanState) :
    (cadence cfg cur st).top_files = st.top_files := by
  unfold cadence
  by_cases h : cfg.update_every_dirs ≤ st.dirs_since_update <;>
    simp [h, sendUpdate]

/-- C5 counterexample: scanning a root whose enumeration fails does end in
`"Scan finished."`, but the final snapshot is not all-zero/empty: the root
itself is counted (`scanned_dirs = 1`) and the top-directories list is
`[(root, 0)]`, refuting "zero counters and empty top-directory rankings". -/
theorem inaccessible_root_counterexample :
    ∃ final, run ⟨"R", 5, 25⟩ ⟨[], []⟩ none 1 = some final ∧
      final.events = [ScanEvent.update ⟨"(done)", 1, 0, [("R", 0)], []⟩,
                      ScanEvent.done "Scan finished."] ∧
      final.scanned_dirs ≠ 0 := by
  refine ⟨(run ⟨"R", 5, 25⟩ ⟨[], []⟩ none 1).getD
    (initState ⟨"R", 5, 25⟩), by decide, by decide, by decide⟩

/-- C5 (amended): if the root's enumeration fails (invalid or completely
inaccessible root), the scan terminates through the normal completion path
with the `"Scan finished."` outcome and a degenerate final snapshot: zero
files scanned and an empty top-files ranking, while the root itself is
still counted once (`scanned_dirs = 1`) and appears in the aggregates and
the top-directories ranking with value 0. -/
theorem inaccessible_root_completes (cfg : ScanConfig) (fs : FileSystem)
    (hroot : fs.listDir cfg.root = none) (hK : 1 ≤ cfg.max_results) :
    ∃ final, loop cfg fs none 1 (initState cfg) = some final ∧
      final.scanned_dirs = 1 ∧ final.scanned_files = 0 ∧
      final.top_files = [] ∧ final.dir_sizes = [(cfg.root, 0)] ∧
      ∃ pre, final.events = pre ++
        [ScanEvent.update ⟨"(done)", 1, 0, [(cfg.root, 0)], []⟩,
         ScanEvent.done "Scan finished."] := by
  have hq : ({ initState cfg with clock := 1 } : ScanState).queue =
      cfg.root :: [] := rfl
  have hv : fs.canon cfg.root ∉
      ({ initState cfg with clock := 1 } : ScanState).visited := by
    simp [initState]
  have hE : enumDir cfg fs none cfg.root
      (visitState fs cfg.root [] { initState cfg with clock := 1 }) =
      visitState fs cfg.root [] { initState cfg with clock := 1 } := by
    unfold enumDir
    rw [hroot]
  set R := cadence cfg cfg.root
    (visitState fs cfg.root [] { initState cfg with clock := 1 }) with hR
  have hiter : iterate cfg fs none { initState cfg with clock := 1 } = R := by
    rw [iterate_visit cfg fs none hq hv, hE]
  have hRq : R.queue = [] := by
    rw [hR, cadence_queue]
    rfl
  have hRsc : R.scanned_dirs = 1 := by
    rw [hR, cadence_scanned_dirs]
    rfl
  have hRsf : R.scanned_files = 0 := by
    rw [hR, cadence_scanned_files]
    rfl
  have hRtf : R.top_files = [] := by
    rw [hR, cadence_top_files]
    rfl
  have hRd : R.dir_sizes = [(cfg.root, 0)] := by
    rw [hR, cadence_dir_sizes]
    show ensureKey cfg.root (initState cfg).dir_sizes = [(cfg.root, 0)]
    simp [initState, ensureKey, alookup]
  have hloop : loop cfg fs none 1 (initState cfg) =
      some (finish cfg none R) := by
    unfold loop
    rw [if_neg (by simp [initState]), if_neg (by simp [stopSet])]
    show loop cfg fs none 0
      (iterate cfg fs none { initState cfg with clock := 1 }) = _
    rw [hiter]
    unfold loop
    rw [if_pos (by simp [hRq])]
  have htop : getTopDirs cfg R.dir_sizes = [(cfg.root, 0)] := by
    rw [hRd]
    show (sortDesc [(cfg.root, 0)]).take cfg.max_results = [(cfg.root, 0)]
    rw [show sortDesc [(cfg.root, 0)] = [(cfg.root, 0)] from rfl]
    exact List.take_of_length_le (by simpa using hK)
  refine ⟨finish cfg none R, hloop, ?_, ?_, ?_, ?_, R.events, ?_⟩
  · rw [finish_scanned_dirs, hRsc]
  · rw [finish_scanned_files, hRsf]
  · rw [finish_top_files, hRtf]
  · rw [finish_dir_sizes, hRd]
  · rw [finish_events, hRsc, hRsf, hRtf, htop]
    simp [stopSet]

theorem inaccessible_root_completes_witness :
    ∃ final, loop ⟨"R", 5, 25⟩ ⟨[], []⟩ none 1
        (initState ⟨"R", 5, 25⟩) = some final ∧
      final.scanned_dirs = 1 ∧ final.scanned_files = 0 ∧
      final.top_files = [] ∧ final.dir_sizes = [("R", 0)] ∧
      ∃ pre, final.events = pre ++
        [ScanEvent.update ⟨"(done)", 1, 0, [("R", 0)], []⟩,
         ScanEvent.done "Scan finished."] :=
  inaccessible_root_completes ⟨"R", 5, 25⟩ ⟨[], []⟩ rfl (by decide)
